import Mathlib

/-!
# pgLoadGenerator: connection pool, worker loop, counters and reporter

A shallow embedding of `loadGenerator.go`.

* A `LockableConnection` is a connection handle together with its `Lock`
  channel.  The channel has capacity one and only ever carries the value
  `true`, so its whole state is whether the buffer is full (`Token.Available`)
  or empty (`Token.Held`).
* `checkoutConnection` is the retry loop of the source; the random source is
  the list of values returned by successive `rand.Intn(connCount)` calls.
* The goroutines started by `main` are modelled by an interleaving step
  function `step` on `State`, one event per statement of the loop body.
-/

namespace LoadGenerator

/-! ## Pool -/

/-- State of a `Lock` channel (`make(chan bool, 1)`): `Available` when the
buffer holds its one value, `Held` when the buffer is empty. -/
inductive Token where
  | Available
  | Held
deriving DecidableEq, Repr

/-- The struct `LockableConnection`: `Conn` is the connection handle (an
identifier for the `*pgx.Conn`), `Lock` the state of the lock channel. -/
structure LockableConnection where
  Conn : Nat
  Lock : Token
deriving DecidableEq, Repr

/-- Outcome of the `select` statement of `checkoutConnection` on
`conns[candidate].Lock`. -/
inductive Attempt where
  /-- The `case <-lock` branch fired: the value was taken out of the buffer. -/
  | claimed (conns : List LockableConnection)
  /-- The `default` branch fired: the buffer was empty, the loop continues. -/
  | busy
  /-- The index `conns[candidate]` is out of range: the program panics. -/
  | outOfRange
deriving DecidableEq, Repr

/-- Lines 34-39: index `conns[candidate]` and try a non-blocking receive on
its `Lock`. -/
def tryReceive (conns : List LockableConnection) (candidate : Nat) : Attempt :=
  match conns[candidate]? with
  | none => .outOfRange
  | some c =>
    match c.Lock with
    | .Available => .claimed (conns.set candidate { c with Lock := .Held })
    | .Held => .busy

/-- Result of running `checkoutConnection` on a finite supply of random
values. -/
inductive CheckoutResult where
  /-- The function returned `conns[candidate]`; `conns` is the pool afterwards. -/
  | returned (candidate : Nat) (conns : List LockableConnection)
  /-- The supplied random values are used up and the loop is still running. -/
  | spinning
  /-- Either `rand.Intn` was called with `connCount = 0` or an index was out of range. -/
  | panicked
deriving DecidableEq, Repr

/-- The function `checkoutConnection` (lines 31-43).  Each element of the last
argument is the value returned by one call of `rand.Intn(connCount)`. -/
def checkoutConnection (connCount : Nat) (conns : List LockableConnection) :
    List Nat → CheckoutResult
  | [] => .spinning
  | candidate :: rest =>
    if connCount = 0 then .panicked
    else
      match tryReceive conns candidate with
      | .claimed conns' => .returned candidate conns'
      | .busy => checkoutConnection connCount conns rest
      | .outOfRange => .panicked

/-- The release statement `conn.Lock <- true` (line 105) for the slot at index
`i`: a send on a channel of capacity one.  It completes when the buffer is
empty and blocks (`none`) when the buffer is full. -/
def sendLock (conns : List LockableConnection) (i : Nat) : Option (List LockableConnection) :=
  match conns[i]? with
  | none => none
  | some c =>
    match c.Lock with
    | .Held => some (conns.set i { c with Lock := .Available })
    | .Available => none

/-- Whether the slot at index `i` exists and its token is `Available`. -/
def isAvailable (conns : List LockableConnection) (i : Nat) : Bool :=
  match conns[i]? with
  | some c => c.Lock = .Available
  | none => false

/-- Whether the slot at index `i` exists and its token is `Held`. -/
def isHeld (conns : List LockableConnection) (i : Nat) : Bool :=
  match conns[i]? with
  | some c => c.Lock = .Held
  | none => false

/-- Number of slots whose token is `Held`. -/
def heldCount (conns : List LockableConnection) : Nat :=
  conns.countP (fun c => c.Lock = .Held)

/-! ## Pool construction -/

/-- Result of the construction loop of `main` (lines 77-91). `calls` is the
number of `pgx.Connect` calls that were made. -/
inductive BuildResult where
  | built (connections : List LockableConnection) (calls : Nat)
  /-- The call `os.Exit(code)` was made. -/
  | exited (code : Nat) (calls : Nat)
deriving DecidableEq, Repr

/-- The loop `for i := 0; i < connCount; i++` of lines 78-91, started at
index `i` with `todo = connCount - i` iterations left and the slots `acc`
filled so far.  `connect k` is the outcome of the `k`-th call of
`pgx.Connect`: `some h` for a handle, `none` for an error. -/
def buildLoop (connect : Nat → Option Nat) : Nat → Nat → List LockableConnection → BuildResult
  | 0, i, acc => .built acc i
  | todo + 1, i, acc =>
    match connect i with
    | none => .exited 1 (i + 1)
    | some h => buildLoop connect todo (i + 1) (acc ++ [{ Conn := h, Lock := .Available }])

/-- Pool construction, lines 77-91 of `main`, for `connCount = n`. -/
def build (n : Nat) (connect : Nat → Option Nat) : BuildResult :=
  buildLoop connect n 0 []

/-! ## Workers and counters -/

/-- Two's-complement wrap-around of `int32` arithmetic, as performed by
`atomic.AddInt32`. -/
def wrap32 (x : Int) : Int :=
  (x + 2147483648) % 4294967296 - 2147483648

/-- Program point of one worker goroutine (lines 96-107), together with its
local variable `conn` (the index of the slot returned by
`checkoutConnection`) once it is assigned. -/
inductive Worker where
  /-- Line 98: inside `checkoutConnection`, no slot claimed yet. -/
  | checkout
  /-- Line 99: about to run `conn.Conn.Exec` and assign `err`. -/
  | exec (conn : Nat)
  /-- Line 100: about to evaluate `err != nil`. -/
  | test (conn : Nat)
  /-- Lines 101-102: about to log and run `atomic.AddInt32(&errorCount, 1)`. -/
  | logErr (conn : Nat)
  /-- Line 104: about to run `atomic.AddInt32(&queryCount, 1)`. -/
  | addQuery (conn : Nat)
  /-- Line 105: about to run `conn.Lock <- true`. -/
  | release (conn : Nat)
deriving DecidableEq, Repr

/-- The slot a worker has claimed and not yet released. -/
def Worker.held : Worker → Option Nat
  | .checkout => none
  | .exec c => some c
  | .test c => some c
  | .logErr c => some c
  | .addQuery c => some c
  | .release c => some c

/-- Whether a worker is at line 104, the increment of `queryCount`. -/
def Worker.atAddQuery : Worker → Bool
  | .addQuery _ => true
  | _ => false

/-- Whether a worker is at line 98, between two iterations. -/
def Worker.idle : Worker → Bool
  | .checkout => true
  | _ => false

/-- The variables shared by the goroutines of `main`: the pool, the
program points of the workers, the variable `err` declared at line 55 and
captured by every worker closure (`true` when it is non-nil), and the two
`int32` counters. -/
structure State where
  connCount : Nat
  connections : List LockableConnection
  workers : List Worker
  err : Bool
  queryCount : Int
  errorCount : Int
deriving DecidableEq, Repr

/-- One atomic action of worker `w`. -/
inductive Event where
  /-- One pass of the loop of `checkoutConnection`, where `rand.Intn` returned `candidate`. -/
  | attempt (w : Nat) (candidate : Nat)
  /-- Line 99: the query ran and `err` was assigned; `failed` tells whether the result was an error. -/
  | exec (w : Nat) (failed : Bool)
  /-- Line 100: the test `err != nil`. -/
  | test (w : Nat)
  /-- Lines 101-102: `atomic.AddInt32(&errorCount, 1)`. -/
  | addError (w : Nat)
  /-- Line 104: `atomic.AddInt32(&queryCount, 1)`. -/
  | addQuery (w : Nat)
  /-- Line 105: `conn.Lock <- true`. -/
  | release (w : Nat)
deriving DecidableEq, Repr

/-- The step function of the system: the state after worker `w` performs the
event, or `none` when the event cannot happen in this state (the worker is
at another statement, `rand.Intn` cannot return that value, the send blocks,
or the program panics). -/
def step (s : State) : Event → Option State
  | .attempt w candidate =>
    match s.workers[w]? with
    | some .checkout =>
      if candidate < s.connCount then
        match tryReceive s.connections candidate with
        | .claimed conns =>
          some { s with connections := conns, workers := s.workers.set w (.exec candidate) }
        | .busy => some s
        | .outOfRange => none
      else none
    | _ => none
  | .exec w failed =>
    match s.workers[w]? with
    | some (.exec c) => some { s with err := failed, workers := s.workers.set w (.test c) }
    | _ => none
  | .test w =>
    match s.workers[w]? with
    | some (.test c) =>
      some { s with workers := s.workers.set w (if s.err then .logErr c else .addQuery c) }
    | _ => none
  | .addError w =>
    match s.workers[w]? with
    | some (.logErr c) =>
      some { s with errorCount := wrap32 (s.errorCount + 1),
                    workers := s.workers.set w (.addQuery c) }
    | _ => none
  | .addQuery w =>
    match s.workers[w]? with
    | some (.addQuery c) =>
      some { s with queryCount := wrap32 (s.queryCount + 1),
                    workers := s.workers.set w (.release c) }
    | _ => none
  | .release w =>
    match s.workers[w]? with
    | some (.release c) =>
      match sendLock s.connections c with
      | some conns => some { s with connections := conns, workers := s.workers.set w .checkout }
      | none => none
    | _ => none

/-- Run a schedule: the events in order, `none` as soon as one cannot happen. -/
def run (s : State) : List Event → Option State
  | [] => some s
  | e :: es => (step s e).bind (fun s' => run s' es)

/-- The state in which `main` starts the workers (lines 92-108): the pool as
built, `activeQueryCount` goroutines at the top of their loop, `err` nil
(every earlier `err != nil` test exited), both counters zero. -/
def launch (connCount : Nat) (connections : List LockableConnection)
    (activeQueryCount : Nat) : State :=
  { connCount := connCount
    connections := connections
    workers := List.replicate activeQueryCount .checkout
    err := false
    queryCount := 0
    errorCount := 0 }

/-- Startup of `main` from line 77 on: build the pool, then start the
workers; `Except.error code` is `os.Exit(code)`. -/
def start (connCount : Nat) (connect : Nat → Option Nat) (activeQueryCount : Nat) :
    Except Nat State :=
  match build connCount connect with
  | .built connections _ => .ok (launch connCount connections activeQueryCount)
  | .exited code _ => .error code

/-- The events of one complete iteration of worker `w` run without
interruption, when `rand.Intn` returns the candidates `spins` (each found
busy) and then `candidate`, and the query fails or not. -/
def iteration (w : Nat) (spins : List Nat) (candidate : Nat) (failed : Bool) : List Event :=
  spins.map (Event.attempt w) ++
    [.attempt w candidate, .exec w failed, .test w] ++
    (if failed then [.addError w] else []) ++
    [.addQuery w, .release w]

/-- Number of `atomic.AddInt32(&queryCount, 1)` calls in a schedule. -/
def queryAdds (evs : List Event) : Nat :=
  evs.countP (fun e => match e with | .addQuery _ => true | _ => false)

/-- Number of `atomic.AddInt32(&errorCount, 1)` calls in a schedule. -/
def errorAdds (evs : List Event) : Nat :=
  evs.countP (fun e => match e with | .addError _ => true | _ => false)

/-- Number of query executions in a schedule that returned an error. -/
def failedExecs (evs : List Event) : Nat :=
  evs.countP (fun e => match e with | .exec _ true => true | _ => false)

/-- Number of query executions in a schedule that returned no error. -/
def successExecs (evs : List Event) : Nat :=
  evs.countP (fun e => match e with | .exec _ false => true | _ => false)

/-- Number of `conn.Lock <- true` statements run by worker `w` in a schedule. -/
def releasesBy (w : Nat) (evs : List Event) : Nat :=
  evs.countP (fun e => match e with | .release v => v = w | _ => false)

/-- Number of workers at line 104. -/
def pendingAdds (workers : List Worker) : Nat :=
  workers.countP Worker.atAddQuery

/-- Number of workers holding a slot. -/
def holders (workers : List Worker) : Nat :=
  workers.countP (fun wk => wk.held.isSome)

/-- The slot held by worker `w`, if the worker exists and holds one. -/
def heldBy (workers : List Worker) (w : Nat) : Option Nat :=
  (workers[w]?).bind Worker.held

/-- The ownership invariant: a slot held by a worker is `Held`, a `Held` slot
has a holder, no slot has two holders, and the `Held` slots are as many as
the workers holding one. -/
structure Owned (conns : List LockableConnection) (workers : List Worker) : Prop where
  held_of_holder : ∀ w i, heldBy workers w = some i → isHeld conns i = true
  holder_of_held : ∀ i, isHeld conns i = true → ∃ w, heldBy workers w = some i
  holder_unique : ∀ w v i, heldBy workers w = some i → heldBy workers v = some i → w = v
  count_eq : heldCount conns = holders workers

/-- The schedule of `k` uninterrupted iterations of worker 0 on slot 0, each
with a successful query. -/
def successRun : Nat → List Event
  | 0 => []
  | k + 1 => iteration 0 [] 0 false ++ successRun k

/-- A system of one slot and one worker between two iterations, with the
given counters and `err`. -/
def soloState (queryCount errorCount : Int) (err : Bool) : State :=
  { connCount := 1
    connections := [{ Conn := 0, Lock := .Available }]
    workers := [.checkout]
    err := err
    queryCount := queryCount
    errorCount := errorCount }

/-- A schedule of two workers in which the query of worker 0 fails and the
query of worker 1 succeeds and assigns `err` before worker 0 tests it. -/
def lostFailure : List Event :=
  [.attempt 0 0, .exec 0 true, .attempt 1 1, .exec 1 false,
   .test 0, .addQuery 0, .release 0, .test 1, .addQuery 1, .release 1]

/-- A schedule of two workers in which the query of worker 0 succeeds and the
query of worker 1 fails and assigns `err` before worker 0 tests it. -/
def spuriousError : List Event :=
  [.attempt 0 0, .exec 0 false, .attempt 1 1, .exec 1 true,
   .test 0, .addError 0, .addQuery 0, .release 0,
   .test 1, .addError 1, .addQuery 1, .release 1]

/-! ## Reporter -/

/-- The decimal digit character of `d < 10`. -/
def digitChar (d : Nat) : Char :=
  Char.ofNat (48 + d)

/-- Decimal rendering of a natural number, most significant digit first. -/
def natDecimal (n : Nat) : List Char :=
  if n = 0 then ['0'] else (Nat.digits 10 n).reverse.map digitChar

/-- The verb `%d` applied to an integer operand. -/
def fmtD (v : Int) : List Char :=
  if v < 0 then '-' :: natDecimal v.natAbs else natDecimal v.natAbs

/-- The fragment of `fmt.Sprintf` used by the program: literal text and the
verb `%d` with integer operands.  `none` for any other verb and when the
operands do not match the verbs. -/
def sprintf : List Char → List Int → Option (List Char)
  | [], [] => some []
  | [], _ :: _ => none
  | '%' :: 'd' :: rest, a :: args => (sprintf rest args).map (fun out => fmtD a ++ out)
  | '%' :: _, _ => none
  | c :: rest, args => (sprintf rest args).map (fun out => c :: out)

/-- The line printed by the reporter (line 115), where `elapsed` is the
value of `t.Sub(start) / time.Second`, and `/`, `%` are Go's truncating
division and remainder. -/
def reportLine (elapsed queryCount errorCount : Int) : Option String :=
  (sprintf "[%d:%d] Executed %d queries (%d errors)\n".toList
    [Int.tdiv elapsed 60, Int.tmod elapsed 60, queryCount, errorCount]).map String.mk

/-- Value of a list of decimal digit characters. -/
def decimalValue (cs : List Char) : Nat :=
  cs.foldl (fun acc c => 10 * acc + (c.toNat - 48)) 0

/-! ## Pool lemmas -/

theorem isAvailable_iff (conns : List LockableConnection) (i : Nat) :
    isAvailable conns i = true ↔ ∃ c, conns[i]? = some c ∧ c.Lock = .Available := by
  unfold isAvailable
  cases h : conns[i]? with
  | none => simp
  | some c => simp

theorem isHeld_iff (conns : List LockableConnection) (i : Nat) :
    isHeld conns i = true ↔ ∃ c, conns[i]? = some c ∧ c.Lock = .Held := by
  unfold isHeld
  cases h : conns[i]? with
  | none => simp
  | some c => simp

theorem tryReceive_available {conns : List LockableConnection} {i : Nat} {c : LockableConnection}
    (hc : conns[i]? = some c) (hl : c.Lock = .Available) :
    tryReceive conns i = .claimed (conns.set i { c with Lock := .Held }) := by
  simp [tryReceive, hc, hl]

theorem tryReceive_held {conns : List LockableConnection} {i : Nat} {c : LockableConnection}
    (hc : conns[i]? = some c) (hl : c.Lock = .Held) :
    tryReceive conns i = .busy := by
  simp [tryReceive, hc, hl]

theorem tryReceive_claimed {conns conns' : List LockableConnection} {i : Nat}
    (h : tryReceive conns i = .claimed conns') :
    ∃ c, conns[i]? = some c ∧ c.Lock = .Available ∧
      conns' = conns.set i { c with Lock := .Held } := by
  unfold tryReceive at h
  cases hc : conns[i]? with
  | none => simp [hc] at h
  | some c =>
    cases hl : c.Lock with
    | Available =>
      simp only [hc, hl] at h
      exact ⟨c, rfl, hl, by injection h with h; exact h.symm⟩
    | Held => simp [hc, hl] at h

theorem sendLock_some {conns conns' : List LockableConnection} {i : Nat}
    (h : sendLock conns i = some conns') :
    ∃ c, conns[i]? = some c ∧ c.Lock = .Held ∧
      conns' = conns.set i { c with Lock := .Available } := by
  unfold sendLock at h
  cases hc : conns[i]? with
  | none => simp [hc] at h
  | some c =>
    cases hl : c.Lock with
    | Available => simp [hc, hl] at h
    | Held =>
      simp only [hc, hl] at h
      exact ⟨c, rfl, hl, by injection h with h; exact h.symm⟩

theorem sendLock_held {conns : List LockableConnection} {i : Nat} {c : LockableConnection}
    (hc : conns[i]? = some c) (hl : c.Lock = .Held) :
    sendLock conns i = some (conns.set i { c with Lock := .Available }) := by
  simp [sendLock, hc, hl]

theorem set_restore {conns : List LockableConnection} {i : Nat} {c : LockableConnection}
    (hc : conns[i]? = some c) (t : Token) :
    (conns.set i { c with Lock := t }).set i c = conns := by
  rw [List.set_set]
  apply List.ext_getElem?
  intro j
  rw [List.getElem?_set]
  by_cases hij : i = j
  · subst hij
    have hlt : i < conns.length := by
      by_contra hge
      rw [List.getElem?_eq_none (by omega)] at hc
      cases hc
    simp [hlt, hc]
  · simp [hij]

/-- Candidates whose token is `Held` are skipped without changing the pool. -/
theorem checkoutConnection_skip (connCount : Nat) (conns : List LockableConnection)
    (hpos : connCount ≠ 0) (pre rest : List Nat) (hpre : ∀ p ∈ pre, isHeld conns p = true) :
    checkoutConnection connCount conns (pre ++ rest) = checkoutConnection connCount conns rest := by
  induction pre with
  | nil => rfl
  | cons p pre ih =>
    obtain ⟨c, hc, hl⟩ := (isHeld_iff conns p).1 (hpre p (List.mem_cons_self _ _))
    have ih' := ih (fun q hq => hpre q (List.mem_cons_of_mem _ hq))
    simp only [List.cons_append, checkoutConnection, if_neg hpos, tryReceive_held hc hl]
    exact ih'

/-- The first candidate whose token is `Available` is claimed and returned. -/
theorem checkoutConnection_hit (connCount : Nat) (conns : List LockableConnection)
    (hpos : connCount ≠ 0) (i : Nat) (rest : List Nat) (c : LockableConnection)
    (hc : conns[i]? = some c) (hl : c.Lock = .Available) :
    checkoutConnection connCount conns (i :: rest)
      = .returned i (conns.set i { c with Lock := .Held }) := by
  simp only [checkoutConnection, if_neg hpos, tryReceive_available hc hl]

theorem find_split (p : Nat → Bool) (l : List Nat) (a : Nat) (h : l.find? p = some a) :
    ∃ pre post, l = pre ++ a :: post ∧ (∀ x ∈ pre, p x = false) ∧ p a = true := by
  induction l with
  | nil => simp at h
  | cons x l ih =>
    by_cases hx : p x = true
    · rw [List.find?_cons_of_pos _ hx] at h
      injection h with h
      subst h
      exact ⟨[], l, rfl, by simp, hx⟩
    · rw [List.find?_cons_of_neg _ hx] at h
      obtain ⟨pre, post, hl, hpre, ha⟩ := ih h
      refine ⟨x :: pre, post, by simp [hl], ?_, ha⟩
      intro y hy
      rcases List.mem_cons.1 hy with rfl | hy
      · simpa using hx
      · exact hpre y hy

theorem held_of_not_available (conns : List LockableConnection) (i : Nat)
    (hi : i < conns.length) (h : isAvailable conns i = false) : isHeld conns i = true := by
  unfold isAvailable at h
  unfold isHeld
  rw [List.getElem?_eq_getElem hi] at h ⊢
  cases hl : (conns[i]).Lock <;> simp_all

theorem getElem?_lt {α : Type} {l : List α} {i : Nat} {a : α} (h : l[i]? = some a) :
    i < l.length := by
  by_contra hge
  rw [List.getElem?_eq_none (by omega)] at h
  cases h

/-- C3. With `connCount = len(conns) >= 1` and every value of the random
source in `[0, connCount)`, `checkoutConnection` never panics; when no
candidate of the sequence is `Available` the loop is still spinning; otherwise
it returns the first candidate `i` whose token is `Available`, every
candidate before it is a `Held` slot left as it was, slot `i` becomes `Held`
with its handle kept, and every other slot is unchanged. -/
theorem checkoutConnection_first_available (connCount : Nat)
    (conns : List LockableConnection) (rands : List Nat)
    (hlen : connCount = conns.length) (hpos : 1 ≤ connCount)
    (hrange : ∀ r ∈ rands, r < connCount) :
    checkoutConnection connCount conns rands ≠ .panicked ∧
    (rands.find? (isAvailable conns) = none →
      checkoutConnection connCount conns rands = .spinning) ∧
    (∀ i, rands.find? (isAvailable conns) = some i →
      ∃ c conns' pre post,
        checkoutConnection connCount conns rands = .returned i conns' ∧
        rands = pre ++ i :: post ∧
        conns[i]? = some c ∧ c.Lock = .Available ∧
        (∀ p ∈ pre, isHeld conns p = true ∧ conns'[p]? = conns[p]?) ∧
        conns'[i]? = some { Conn := c.Conn, Lock := .Held } ∧
        (∀ j, j ≠ i → conns'[j]? = conns[j]?) ∧
        conns'.length = conns.length) := by
  have hne : connCount ≠ 0 := by omega
  have hsome : ∀ i, rands.find? (isAvailable conns) = some i →
      ∃ c conns' pre post,
        checkoutConnection connCount conns rands = .returned i conns' ∧
        rands = pre ++ i :: post ∧
        conns[i]? = some c ∧ c.Lock = .Available ∧
        (∀ p ∈ pre, isHeld conns p = true ∧ conns'[p]? = conns[p]?) ∧
        conns'[i]? = some { Conn := c.Conn, Lock := .Held } ∧
        (∀ j, j ≠ i → conns'[j]? = conns[j]?) ∧
        conns'.length = conns.length := by
    intro i hfind
    obtain ⟨pre, post, hsplit, hpre, hi⟩ := find_split _ _ _ hfind
    obtain ⟨c, hc, hl⟩ := (isAvailable_iff conns i).1 hi
    have hheld : ∀ p ∈ pre, isHeld conns p = true := by
      intro p hp
      apply held_of_not_available conns p _ (hpre p hp)
      have := hrange p (by rw [hsplit]; exact List.mem_append_left _ hp)
      omega
    refine ⟨c, conns.set i { c with Lock := .Held }, pre, post, ?_, hsplit, hc, hl, ?_, ?_, ?_, ?_⟩
    · rw [hsplit, checkoutConnection_skip connCount conns hne pre _ hheld]
      exact checkoutConnection_hit connCount conns hne i post c hc hl
    · intro p hp
      refine ⟨hheld p hp, ?_⟩
      have hpi : i ≠ p := by
        rintro rfl
        have := hpre i hp
        rw [hi] at this
        cases this
      simp [List.getElem?_set, hpi]
    · simp [List.getElem?_set, getElem?_lt hc]
    · intro j hj
      simp [List.getElem?_set, Ne.symm hj]
    · simp
  refine ⟨?_, ?_, hsome⟩
  · cases hfind : rands.find? (isAvailable conns) with
    | some i =>
      obtain ⟨c, conns', pre, post, hres, _⟩ := hsome i hfind
      rw [hres]
      simp
    | none =>
      have hall : ∀ p ∈ rands, isHeld conns p = true := by
        intro p hp
        apply held_of_not_available conns p (by have := hrange p hp; omega)
        have := List.find?_eq_none.1 hfind p hp
        simpa using this
      have := checkoutConnection_skip connCount conns hne rands [] hall
      rw [List.append_nil] at this
      rw [this]
      simp [checkoutConnection]
  · intro hfind
    have hall : ∀ p ∈ rands, isHeld conns p = true := by
      intro p hp
      apply held_of_not_available conns p (by have := hrange p hp; omega)
      have := List.find?_eq_none.1 hfind p hp
      simpa using this
    have := checkoutConnection_skip connCount conns hne rands [] hall
    rw [List.append_nil] at this
    rw [this]
    simp [checkoutConnection]

theorem checkoutConnection_first_available_witness :
    (2 = [(⟨7, .Held⟩ : LockableConnection), ⟨8, .Available⟩].length ∧ 1 ≤ 2 ∧
      ∀ r ∈ [0, 0, 1, 0], r < 2) ∧
    [0, 0, 1, 0].find? (isAvailable [⟨7, .Held⟩, ⟨8, .Available⟩]) = some 1 ∧
    checkoutConnection 2 [⟨7, .Held⟩, ⟨8, .Available⟩] [0, 0, 1, 0] ≠ .panicked ∧
    ∃ c conns' pre post,
      checkoutConnection 2 [⟨7, .Held⟩, ⟨8, .Available⟩] [0, 0, 1, 0] = .returned 1 conns' ∧
      [0, 0, 1, 0] = pre ++ 1 :: post ∧
      [(⟨7, .Held⟩ : LockableConnection), ⟨8, .Available⟩][1]? = some c ∧
      c.Lock = .Available ∧
      (∀ p ∈ pre, isHeld [⟨7, .Held⟩, ⟨8, .Available⟩] p = true ∧
        conns'[p]? = [(⟨7, .Held⟩ : LockableConnection), ⟨8, .Available⟩][p]?) ∧
      conns'[1]? = some { Conn := c.Conn, Lock := .Held } ∧
      (∀ j, j ≠ 1 → conns'[j]? = [(⟨7, .Held⟩ : LockableConnection), ⟨8, .Available⟩][j]?) ∧
      conns'.length = [(⟨7, .Held⟩ : LockableConnection), ⟨8, .Available⟩].length :=
  ⟨⟨rfl, by decide, by decide⟩, by decide,
    (checkoutConnection_first_available 2 [⟨7, .Held⟩, ⟨8, .Available⟩] [0, 0, 1, 0]
      rfl (by decide) (by decide)).1,
    (checkoutConnection_first_available 2 [⟨7, .Held⟩, ⟨8, .Available⟩] [0, 0, 1, 0]
      rfl (by decide) (by decide)).2.2 1 (by decide)⟩

/-- C2. When slot `i` is `Available`, a checkout that claims it (after
skipping any number of `Held` candidates) followed by the release
`conn.Lock <- true` of slot `i` gives back exactly the original pool; in that
pool a later checkout whose first non-`Held` candidate is `i` claims slot `i`
again, and so does the attempt of any worker that is at its checkout. -/
theorem checkout_release_restores (connCount : Nat) (conns : List LockableConnection)
    (i : Nat) (pre post : List Nat) (hpos : connCount ≠ 0)
    (havail : isAvailable conns i = true) (hpre : ∀ p ∈ pre, isHeld conns p = true) :
    ∃ claimed released,
      checkoutConnection connCount conns (pre ++ i :: post) = .returned i claimed ∧
      isHeld claimed i = true ∧
      sendLock claimed i = some released ∧
      released = conns ∧
      isAvailable released i = true ∧
      (∀ pre' post', (∀ p ∈ pre', isHeld released p = true) →
        ∃ again, checkoutConnection connCount released (pre' ++ i :: post') = .returned i again ∧
          isHeld again i = true) ∧
      (∀ (s : State) (w : Nat), s.connections = released → s.workers[w]? = some .checkout →
        i < s.connCount →
        ∃ s', step s (.attempt w i) = some s' ∧ heldBy s'.workers w = some i ∧
          isHeld s'.connections i = true) := by
  obtain ⟨c, hc, hl⟩ := (isAvailable_iff conns i).1 havail
  have hlt := getElem?_lt hc
  have hclaim : ∀ pre' post', (∀ p ∈ pre', isHeld conns p = true) →
      checkoutConnection connCount conns (pre' ++ i :: post')
        = .returned i (conns.set i { c with Lock := .Held }) := by
    intro pre' post' h
    rw [checkoutConnection_skip connCount conns hpos pre' _ h]
    exact checkoutConnection_hit connCount conns hpos i post' c hc hl
  have hheld : isHeld (conns.set i { c with Lock := .Held }) i = true := by
    rw [isHeld_iff]
    exact ⟨{ c with Lock := .Held }, by simp [List.getElem?_set, hlt], rfl⟩
  refine ⟨conns.set i { c with Lock := .Held }, conns, hclaim pre post hpre, hheld, ?_, rfl,
    havail, ?_, ?_⟩
  · have hget : (conns.set i { c with Lock := .Held })[i]? = some { c with Lock := .Held } := by
      simp [List.getElem?_set, hlt]
    rw [sendLock_held hget rfl]
    have hcc : ({ ({ c with Lock := .Held } : LockableConnection) with Lock := .Available }
        : LockableConnection) = c := by
      cases c
      simp_all
    rw [hcc, set_restore hc]
  · intro pre' post' h
    exact ⟨_, hclaim pre' post' h, hheld⟩
  · intro s w hs hw hi
    refine ⟨{ s with connections := conns.set i { c with Lock := .Held },
                     workers := s.workers.set w (.exec i) }, ?_, ?_, hheld⟩
    · simp only [step, hw, if_pos hi, hs, tryReceive_available hc hl]
    · simp [heldBy, List.getElem?_set, getElem?_lt hw, Worker.held]

theorem checkout_release_restores_witness :
    ∃ claimed released,
      checkoutConnection 2 [⟨7, .Held⟩, ⟨8, .Available⟩] ([0, 0] ++ 1 :: [0]) = .returned 1 claimed ∧
      isHeld claimed 1 = true ∧
      sendLock claimed 1 = some released ∧
      released = [⟨7, .Held⟩, ⟨8, .Available⟩] ∧
      isAvailable released 1 = true ∧
      (∀ pre' post', (∀ p ∈ pre', isHeld released p = true) →
        ∃ again, checkoutConnection 2 released (pre' ++ 1 :: post') = .returned 1 again ∧
          isHeld again 1 = true) ∧
      (∀ (s : State) (w : Nat), s.connections = released → s.workers[w]? = some .checkout →
        1 < s.connCount →
        ∃ s', step s (.attempt w 1) = some s' ∧ heldBy s'.workers w = some 1 ∧
          isHeld s'.connections 1 = true) :=
  checkout_release_restores 2 [⟨7, .Held⟩, ⟨8, .Available⟩] 1 [0, 0] [0] (by decide)
    (by decide) (by decide)

/-! ## One worker iteration -/

theorem run_append (s : State) (a b : List Event) :
    run s (a ++ b) = (run s a).bind (fun s' => run s' b) := by
  induction a generalizing s with
  | nil => simp [run]
  | cons e a ih =>
    simp only [List.cons_append, run]
    cases step s e with
    | none => simp
    | some s' => simp [ih]

theorem set_same {α : Type} {l : List α} {i : Nat} {a : α} (h : l[i]? = some a) :
    l.set i a = l := by
  apply List.ext_getElem?
  intro j
  rw [List.getElem?_set]
  by_cases hij : i = j
  · subst hij
    simp [getElem?_lt h, h]
  · simp [hij]

theorem run_spins (s : State) (w : Nat) (spins : List Nat)
    (hw : s.workers[w]? = some .checkout)
    (hspins : ∀ p ∈ spins, p < s.connCount ∧ isHeld s.connections p = true) :
    run s (spins.map (Event.attempt w)) = some s := by
  induction spins with
  | nil => rfl
  | cons p spins ih =>
    obtain ⟨hp, hheld⟩ := hspins p (List.mem_cons_self _ _)
    obtain ⟨c, hc, hl⟩ := (isHeld_iff _ _).1 hheld
    have hstep : step s (.attempt w p) = some s := by
      simp only [step, hw, if_pos hp, tryReceive_held hc hl]
    simp only [List.map_cons, run, hstep, Option.some_bind]
    exact ih (fun q hq => hspins q (List.mem_cons_of_mem _ hq))

/-- The state after one uninterrupted iteration of worker `w`. -/
theorem run_iteration (s : State) (w : Nat) (spins : List Nat) (candidate : Nat)
    (failed : Bool) (hw : s.workers[w]? = some .checkout)
    (hspins : ∀ p ∈ spins, p < s.connCount ∧ isHeld s.connections p = true)
    (hcand : candidate < s.connCount) (havail : isAvailable s.connections candidate = true) :
    run s (iteration w spins candidate failed) =
      some { s with err := failed
                    queryCount := wrap32 (s.queryCount + 1)
                    errorCount := if failed then wrap32 (s.errorCount + 1) else s.errorCount } := by
  obtain ⟨c, hc, hl⟩ := (isAvailable_iff _ _).1 havail
  have hwlt := getElem?_lt hw
  have hclt := getElem?_lt hc
  have hcc : ({ ({ c with Lock := .Held } : LockableConnection) with Lock := .Available }
      : LockableConnection) = c := by
    cases c
    simp_all
  have hsend : sendLock (s.connections.set candidate { c with Lock := .Held }) candidate
      = some s.connections := by
    have hget : (s.connections.set candidate { c with Lock := .Held })[candidate]?
        = some { c with Lock := .Held } := by
      simp [List.getElem?_set, hclt]
    rw [sendLock_held hget rfl, hcc, set_restore hc]
  have hwk : ∀ a : Worker, (s.workers.set w a)[w]? = some a := by
    intro a
    simp [List.getElem?_set, hwlt]
  have hback : s.workers.set w .checkout = s.workers := set_same hw
  unfold iteration
  rw [List.append_assoc, List.append_assoc, run_append, run_spins s w spins hw hspins]
  cases failed with
  | false =>
    simp [run, step, hw, hcand, tryReceive_available hc hl, hwk, List.set_set, hsend, hback]
  | true =>
    simp [run, step, hw, hcand, tryReceive_available hc hl, hwk, List.set_set, hsend, hback]

theorem wrap32_of_range (x : Int) (hlo : -2147483648 ≤ x) (hhi : x < 2147483648) :
    wrap32 x = x := by
  unfold wrap32
  rw [Int.emod_eq_of_lt (by omega) (by omega)]
  omega

/-- C4. One iteration of a worker run without interruption, from counters
that are `int32` values below the maximum `2^31 - 1`: the iteration runs to
completion; when the query fails `errorCount` and `queryCount` both grow by
exactly one, when it succeeds `queryCount` grows by exactly one and
`errorCount` is unchanged. -/
theorem iteration_counters (s : State) (w : Nat) (spins : List Nat) (candidate : Nat)
    (failed : Bool) (hw : s.workers[w]? = some .checkout)
    (hspins : ∀ p ∈ spins, p < s.connCount ∧ isHeld s.connections p = true)
    (hcand : candidate < s.connCount) (havail : isAvailable s.connections candidate = true)
    (hq : -2147483648 ≤ s.queryCount ∧ s.queryCount < 2147483647)
    (he : -2147483648 ≤ s.errorCount ∧ s.errorCount < 2147483647) :
    ∃ s', run s (iteration w spins candidate failed) = some s' ∧
      s'.queryCount = s.queryCount + 1 ∧
      (failed = true → s'.errorCount = s.errorCount + 1) ∧
      (failed = false → s'.errorCount = s.errorCount) := by
  refine ⟨_, run_iteration s w spins candidate failed hw hspins hcand havail, ?_, ?_, ?_⟩
  · exact wrap32_of_range _ (by omega) (by omega)
  · intro hf
    simp only [hf, if_true]
    exact wrap32_of_range _ (by omega) (by omega)
  · intro hf
    simp [hf]

theorem iteration_counters_witness :
    ∃ s', run (launch 2 [⟨7, .Held⟩, ⟨8, .Available⟩] 2) (iteration 1 [0, 0] 1 true) = some s' ∧
      s'.queryCount = (launch 2 [⟨7, .Held⟩, ⟨8, .Available⟩] 2).queryCount + 1 ∧
      (true = true → s'.errorCount = (launch 2 [⟨7, .Held⟩, ⟨8, .Available⟩] 2).errorCount + 1) ∧
      (true = false → s'.errorCount = (launch 2 [⟨7, .Held⟩, ⟨8, .Available⟩] 2).errorCount) :=
  iteration_counters (launch 2 [⟨7, .Held⟩, ⟨8, .Available⟩] 2) 1 [0, 0] 1 true
    (by decide) (by decide) (by decide) (by decide) (by decide) (by decide)

/-- C5. One uninterrupted iteration of a worker, whether its query fails or
not: the claim makes the slot `Held` by that worker, the iteration runs to
completion with exactly one release by that worker, and afterwards the pool
is exactly the pool before the checkout (the slot is `Available` again) and
every worker, this one included, is where it was: at the top of the loop. -/
theorem iteration_releases_slot (s : State) (w : Nat) (spins : List Nat) (candidate : Nat)
    (failed : Bool) (hw : s.workers[w]? = some .checkout)
    (hspins : ∀ p ∈ spins, p < s.connCount ∧ isHeld s.connections p = true)
    (hcand : candidate < s.connCount) (havail : isAvailable s.connections candidate = true) :
    ∃ mid s',
      run s (spins.map (Event.attempt w) ++ [.attempt w candidate]) = some mid ∧
      isHeld mid.connections candidate = true ∧
      heldBy mid.workers w = some candidate ∧
      run s (iteration w spins candidate failed) = some s' ∧
      releasesBy w (iteration w spins candidate failed) = 1 ∧
      s'.connections = s.connections ∧
      isAvailable s'.connections candidate = true ∧
      s'.workers = s.workers ∧
      s'.workers[w]? = some .checkout := by
  obtain ⟨c, hc, hl⟩ := (isAvailable_iff _ _).1 havail
  refine ⟨{ s with connections := s.connections.set candidate { c with Lock := .Held },
                   workers := s.workers.set w (.exec candidate) }, _, ?_, ?_, ?_,
    run_iteration s w spins candidate failed hw hspins hcand havail, ?_, rfl, havail, rfl, hw⟩
  · rw [run_append, run_spins s w spins hw hspins]
    simp only [Option.some_bind, run, step, hw, if_pos hcand, tryReceive_available hc hl]
  · rw [isHeld_iff]
    exact ⟨{ c with Lock := .Held }, by simp [List.getElem?_set, getElem?_lt hc], rfl⟩
  · simp [heldBy, List.getElem?_set, getElem?_lt hw, Worker.held]
  · unfold releasesBy iteration
    cases failed <;> simp [List.countP_append, List.countP_cons, List.countP_map,
      Function.comp_def]

theorem iteration_releases_slot_witness :
    ∃ mid s',
      run (launch 2 [⟨7, .Held⟩, ⟨8, .Available⟩] 2)
        ([0, 0].map (Event.attempt 1) ++ [.attempt 1 1]) = some mid ∧
      isHeld mid.connections 1 = true ∧
      heldBy mid.workers 1 = some 1 ∧
      run (launch 2 [⟨7, .Held⟩, ⟨8, .Available⟩] 2) (iteration 1 [0, 0] 1 true) = some s' ∧
      releasesBy 1 (iteration 1 [0, 0] 1 true) = 1 ∧
      s'.connections = (launch 2 [⟨7, .Held⟩, ⟨8, .Available⟩] 2).connections ∧
      isAvailable s'.connections 1 = true ∧
      s'.workers = (launch 2 [⟨7, .Held⟩, ⟨8, .Available⟩] 2).workers ∧
      s'.workers[1]? = some .checkout :=
  iteration_releases_slot (launch 2 [⟨7, .Held⟩, ⟨8, .Available⟩] 2) 1 [0, 0] 1 true
    (by decide) (by decide) (by decide) (by decide)

/-! ## Ownership invariant -/

theorem heldBy_set (workers : List Worker) (w v : Nat) (b : Worker) (hw : w < workers.length) :
    heldBy (workers.set w b) v = if w = v then b.held else heldBy workers v := by
  unfold heldBy
  rw [List.getElem?_set]
  by_cases h : w = v
  · subst h
    simp [hw]
  · simp [h]

theorem isHeld_set (conns : List LockableConnection) (i j : Nat) (x : LockableConnection)
    (hi : i < conns.length) :
    isHeld (conns.set i x) j = if i = j then decide (x.Lock = .Held) else isHeld conns j := by
  unfold isHeld
  rw [List.getElem?_set]
  by_cases h : i = j
  · subst h
    simp [hi]
  · simp [h]

theorem countP_set_same {α : Type} (p : α → Bool) (l : List α) (i : Nat) (a b : α)
    (h : l[i]? = some a) (hp : p b = p a) : (l.set i b).countP p = l.countP p := by
  have hi := getElem?_lt h
  have ha : l[i] = a := by
    rw [List.getElem?_eq_getElem hi] at h
    exact Option.some.inj h
  have hle := List.boole_getElem_le_countP p l i hi
  rw [List.countP_set p l i b hi, ha, hp]
  rw [ha] at hle
  omega

theorem countP_set_gain {α : Type} (p : α → Bool) (l : List α) (i : Nat) (a b : α)
    (h : l[i]? = some a) (hpa : p a = false) (hpb : p b = true) :
    (l.set i b).countP p = l.countP p + 1 := by
  have hi := getElem?_lt h
  have ha : l[i] = a := by
    rw [List.getElem?_eq_getElem hi] at h
    exact Option.some.inj h
  rw [List.countP_set p l i b hi, ha, hpa, hpb]
  simp

theorem countP_set_lose {α : Type} (p : α → Bool) (l : List α) (i : Nat) (a b : α)
    (h : l[i]? = some a) (hpa : p a = true) (hpb : p b = false) :
    (l.set i b).countP p + 1 = l.countP p := by
  have hi := getElem?_lt h
  have ha : l[i] = a := by
    rw [List.getElem?_eq_getElem hi] at h
    exact Option.some.inj h
  have hle := List.boole_getElem_le_countP p l i hi
  rw [List.countP_set p l i b hi, ha, hpa, hpb]
  rw [ha, hpa] at hle
  simp only [↓reduceIte, Bool.false_eq_true] at hle ⊢
  omega

/-- What a step can do to the pool and to the held slots: nothing, move one
worker between statements while it keeps its slot, claim, or release. -/
theorem step_shape (s s' : State) (e : Event) (h : step s e = some s') :
    (s'.connections = s.connections ∧
      (s'.workers = s.workers ∨
        ∃ w a b, s.workers[w]? = some a ∧ b.held = a.held ∧ s'.workers = s.workers.set w b)) ∨
    (∃ w c lc, s.workers[w]? = some .checkout ∧ s.connections[c]? = some lc ∧
      lc.Lock = .Available ∧ s'.connections = s.connections.set c { lc with Lock := .Held } ∧
      s'.workers = s.workers.set w (.exec c)) ∨
    (∃ w c lc, s.workers[w]? = some (.release c) ∧ s.connections[c]? = some lc ∧
      lc.Lock = .Held ∧ s'.connections = s.connections.set c { lc with Lock := .Available } ∧
      s'.workers = s.workers.set w .checkout) := by
  cases e with
  | attempt w candidate =>
    simp only [step] at h
    split at h
    · rename_i hw
      split at h
      · split at h
        · rename_i conns hrecv
          obtain ⟨lc, hlc, hl, hconns⟩ := tryReceive_claimed hrecv
          injection h with h
          subst h
          exact Or.inr (Or.inl ⟨w, candidate, lc, hw, hlc, hl, hconns, rfl⟩)
        · injection h with h
          subst h
          exact Or.inl ⟨rfl, Or.inl rfl⟩
        · cases h
      · cases h
    · cases h
  | exec w failed =>
    simp only [step] at h
    split at h
    · rename_i c hw
      injection h with h
      subst h
      exact Or.inl ⟨rfl, Or.inr ⟨w, .exec c, .test c, hw, rfl, rfl⟩⟩
    · cases h
  | test w =>
    simp only [step] at h
    split at h
    · rename_i c hw
      injection h with h
      subst h
      refine Or.inl ⟨rfl, Or.inr ⟨w, .test c, (if s.err then .logErr c else .addQuery c), hw, ?_, rfl⟩⟩
      cases s.err <;> rfl
    · cases h
  | addError w =>
    simp only [step] at h
    split at h
    · rename_i c hw
      injection h with h
      subst h
      exact Or.inl ⟨rfl, Or.inr ⟨w, .logErr c, .addQuery c, hw, rfl, rfl⟩⟩
    · cases h
  | addQuery w =>
    simp only [step] at h
    split at h
    · rename_i c hw
      injection h with h
      subst h
      exact Or.inl ⟨rfl, Or.inr ⟨w, .addQuery c, .release c, hw, rfl, rfl⟩⟩
    · cases h
  | release w =>
    simp only [step] at h
    split at h
    · rename_i c hw
      split at h
      · rename_i conns hsend
        obtain ⟨lc, hlc, hl, hconns⟩ := sendLock_some hsend
        injection h with h
        subst h
        exact Or.inr (Or.inr ⟨w, c, lc, hw, hlc, hl, hconns, rfl⟩)
      · cases h
    · cases h

theorem heldBy_of_getElem {workers : List Worker} {w : Nat} {a : Worker}
    (h : workers[w]? = some a) : heldBy workers w = a.held := by
  simp [heldBy, h]

theorem owned_move {conns : List LockableConnection} {workers : List Worker} {w : Nat}
    {a b : Worker} (hinv : Owned conns workers) (hw : workers[w]? = some a)
    (hab : b.held = a.held) : Owned conns (workers.set w b) := by
  have hsame : ∀ v, heldBy (workers.set w b) v = heldBy workers v := by
    intro v
    rw [heldBy_set workers w v b (getElem?_lt hw)]
    by_cases h : w = v
    · subst h
      rw [if_pos rfl, hab, heldBy_of_getElem hw]
    · rw [if_neg h]
  refine ⟨?_, ?_, ?_, ?_⟩
  · intro v i hv
    exact hinv.held_of_holder v i (by rw [← hsame]; exact hv)
  · intro i hi
    obtain ⟨v, hv⟩ := hinv.holder_of_held i hi
    exact ⟨v, by rw [hsame]; exact hv⟩
  · intro v u i hv hu
    rw [hsame] at hv hu
    exact hinv.holder_unique v u i hv hu
  · rw [hinv.count_eq]
    unfold holders
    exact (countP_set_same _ workers w a b hw (by rw [hab])).symm

theorem owned_claim {conns : List LockableConnection} {workers : List Worker} {w c : Nat}
    {lc : LockableConnection} (hinv : Owned conns workers) (hw : workers[w]? = some .checkout)
    (hc : conns[c]? = some lc) (hl : lc.Lock = .Available) :
    Owned (conns.set c { lc with Lock := .Held }) (workers.set w (.exec c)) := by
  have hwlt := getElem?_lt hw
  have hclt := getElem?_lt hc
  have hnone : heldBy workers w = none := by rw [heldBy_of_getElem hw]; rfl
  have hfree : isHeld conns c = false := by simp [isHeld, hc, hl]
  refine ⟨?_, ?_, ?_, ?_⟩
  · intro v i hv
    rw [heldBy_set workers w v _ hwlt] at hv
    rw [isHeld_set conns c i _ hclt]
    by_cases hwv : w = v
    · rw [if_pos hwv] at hv
      have : c = i := by simpa [Worker.held] using hv
      simp [this]
    · rw [if_neg hwv] at hv
      have hi := hinv.held_of_holder v i hv
      by_cases hci : c = i
      · simp [hci]
      · rw [if_neg hci]
        exact hi
  · intro i hi
    rw [isHeld_set conns c i _ hclt] at hi
    by_cases hci : c = i
    · refine ⟨w, ?_⟩
      rw [heldBy_set workers w w _ hwlt, if_pos rfl, ← hci]
      rfl
    · rw [if_neg hci] at hi
      obtain ⟨v, hv⟩ := hinv.holder_of_held i hi
      refine ⟨v, ?_⟩
      rw [heldBy_set workers w v _ hwlt]
      have hwv : w ≠ v := by
        rintro rfl
        rw [hnone] at hv
        cases hv
      rw [if_neg hwv]
      exact hv
  · intro v u i hv hu
    rw [heldBy_set workers w v _ hwlt] at hv
    rw [heldBy_set workers w u _ hwlt] at hu
    by_cases hwv : w = v
    · by_cases hwu : w = u
      · rw [← hwv, ← hwu]
      · rw [if_pos hwv] at hv
        rw [if_neg hwu] at hu
        have hci : c = i := by simpa [Worker.held] using hv
        have := hinv.held_of_holder u i hu
        rw [← hci, hfree] at this
        cases this
    · by_cases hwu : w = u
      · rw [if_neg hwv] at hv
        rw [if_pos hwu] at hu
        have hci : c = i := by simpa [Worker.held] using hu
        have := hinv.held_of_holder v i hv
        rw [← hci, hfree] at this
        cases this
      · rw [if_neg hwv] at hv
        rw [if_neg hwu] at hu
        exact hinv.holder_unique v u i hv hu
  · unfold heldCount holders
    rw [countP_set_gain _ conns c lc _ hc (by simp [hl]) (by simp),
      countP_set_gain _ workers w .checkout _ hw (by simp [Worker.held]) (by simp [Worker.held])]
    have := hinv.count_eq
    unfold heldCount holders at this
    omega

theorem owned_release {conns : List LockableConnection} {workers : List Worker} {w c : Nat}
    {lc : LockableConnection} (hinv : Owned conns workers)
    (hw : workers[w]? = some (.release c)) (hc : conns[c]? = some lc) (hl : lc.Lock = .Held) :
    Owned (conns.set c { lc with Lock := .Available }) (workers.set w .checkout) := by
  have hwlt := getElem?_lt hw
  have hclt := getElem?_lt hc
  have hown : heldBy workers w = some c := by rw [heldBy_of_getElem hw]; rfl
  refine ⟨?_, ?_, ?_, ?_⟩
  · intro v i hv
    rw [heldBy_set workers w v _ hwlt] at hv
    rw [isHeld_set conns c i _ hclt]
    by_cases hwv : w = v
    · rw [if_pos hwv] at hv
      cases hv
    · rw [if_neg hwv] at hv
      have hci : c ≠ i := by
        rintro rfl
        exact hwv (hinv.holder_unique w v c hown hv)
      rw [if_neg hci]
      exact hinv.held_of_holder v i hv
  · intro i hi
    rw [isHeld_set conns c i _ hclt] at hi
    by_cases hci : c = i
    · rw [if_pos hci] at hi
      simp at hi
    · rw [if_neg hci] at hi
      obtain ⟨v, hv⟩ := hinv.holder_of_held i hi
      refine ⟨v, ?_⟩
      rw [heldBy_set workers w v _ hwlt]
      have hwv : w ≠ v := by
        rintro rfl
        rw [hown] at hv
        exact hci (Option.some.inj hv)
      rw [if_neg hwv]
      exact hv
  · intro v u i hv hu
    rw [heldBy_set workers w v _ hwlt] at hv
    rw [heldBy_set workers w u _ hwlt] at hu
    by_cases hwv : w = v
    · rw [if_pos hwv] at hv
      cases hv
    · by_cases hwu : w = u
      · rw [if_pos hwu] at hu
        cases hu
      · rw [if_neg hwv] at hv
        rw [if_neg hwu] at hu
        exact hinv.holder_unique v u i hv hu
  · unfold heldCount holders
    have h1 := countP_set_lose (fun c : LockableConnection => decide (c.Lock = .Held)) conns c lc
      { lc with Lock := .Available } hc (by simp [hl]) (by simp)
    have h2 := countP_set_lose (fun wk : Worker => wk.held.isSome) workers w (.release c)
      .checkout hw (by simp [Worker.held]) (by simp [Worker.held])
    have := hinv.count_eq
    unfold heldCount holders at this
    omega

theorem owned_step {s s' : State} {e : Event} (hinv : Owned s.connections s.workers)
    (h : step s e = some s') : Owned s'.connections s'.workers := by
  rcases step_shape s s' e h with ⟨hc, hw | ⟨w, a, b, hw, hab, hset⟩⟩ |
      ⟨w, c, lc, hw, hc, hl, hconns, hworkers⟩ | ⟨w, c, lc, hw, hc, hl, hconns, hworkers⟩
  · rw [hc, hw]
    exact hinv
  · rw [hc, hset]
    exact owned_move hinv hw hab
  · rw [hconns, hworkers]
    exact owned_claim hinv hw hc hl
  · rw [hconns, hworkers]
    exact owned_release hinv hw hc hl

theorem step_lengths {s s' : State} {e : Event} (h : step s e = some s') :
    s'.connections.length = s.connections.length ∧ s'.workers.length = s.workers.length := by
  rcases step_shape s s' e h with ⟨hc, hw | ⟨w, a, b, hw, hab, hset⟩⟩ |
      ⟨w, c, lc, hw, hc, hl, hconns, hworkers⟩ | ⟨w, c, lc, hw, hc, hl, hconns, hworkers⟩
  · rw [hc, hw]
    exact ⟨rfl, rfl⟩
  · rw [hc, hset]
    simp
  · rw [hconns, hworkers]
    simp
  · rw [hconns, hworkers]
    simp

theorem run_lengths {s s' : State} {evs : List Event} (h : run s evs = some s') :
    s'.connections.length = s.connections.length ∧ s'.workers.length = s.workers.length := by
  induction evs generalizing s with
  | nil =>
    simp only [run] at h
    injection h with h
    subst h
    exact ⟨rfl, rfl⟩
  | cons e evs ih =>
    simp only [run] at h
    cases hstep : step s e with
    | none => simp [hstep] at h
    | some mid =>
      rw [hstep] at h
      obtain ⟨h1, h2⟩ := ih h
      obtain ⟨l1, l2⟩ := step_lengths hstep
      exact ⟨by omega, by omega⟩

theorem owned_run {s s' : State} {evs : List Event} (hinv : Owned s.connections s.workers)
    (h : run s evs = some s') : Owned s'.connections s'.workers := by
  induction evs generalizing s with
  | nil =>
    simp only [run] at h
    injection h with h
    subst h
    exact hinv
  | cons e evs ih =>
    simp only [run] at h
    cases hstep : step s e with
    | none => simp [hstep] at h
    | some mid =>
      rw [hstep] at h
      exact ih (owned_step hinv hstep) h

/-! ## Pool construction -/

theorem buildLoop_all_ok (connect : Nat → Option Nat) (todo i : Nat)
    (acc : List LockableConnection) (hok : ∀ j, j < todo → (connect (i + j)).isSome = true) :
    ∃ pool, buildLoop connect todo i acc = .built pool (i + todo) ∧
      pool.length = acc.length + todo ∧
      (∀ j, j < acc.length → pool[j]? = acc[j]?) ∧
      (∀ j, j < todo → ∃ h, connect (i + j) = some h ∧
        pool[acc.length + j]? = some { Conn := h, Lock := .Available }) := by
  induction todo generalizing i acc with
  | zero => exact ⟨acc, rfl, rfl, fun _ _ => rfl, fun j hj => absurd hj (Nat.not_lt_zero j)⟩
  | succ todo ih =>
    have h0 := hok 0 (Nat.succ_pos todo)
    rw [Nat.add_zero] at h0
    obtain ⟨h, hh⟩ := Option.isSome_iff_exists.1 h0
    have hok' : ∀ j, j < todo → (connect (i + 1 + j)).isSome = true := by
      intro j hj
      have := hok (j + 1) (by omega)
      rwa [show i + (j + 1) = i + 1 + j by omega] at this
    obtain ⟨pool, hbuild, hlen, hold, hnew⟩ :=
      ih (i + 1) (acc ++ [{ Conn := h, Lock := .Available }]) hok'
    refine ⟨pool, ?_, ?_, ?_, ?_⟩
    · simp only [buildLoop, hh]
      rw [hbuild]
      congr 1
      omega
    · rw [hlen]
      simp
      omega
    · intro j hj
      rw [hold j (by simp; omega), List.getElem?_append_left hj]
    · intro j hj
      cases j with
      | zero =>
        refine ⟨h, hh, ?_⟩
        rw [Nat.add_zero, hold acc.length (by simp)]
        simp
      | succ j =>
        obtain ⟨h', hh', hp⟩ := hnew j (by omega)
        refine ⟨h', ?_, ?_⟩
        · rw [show i + (j + 1) = i + 1 + j by omega]
          exact hh'
        · rw [← hp]
          congr 1
          simp
          omega

theorem buildLoop_first_failure (connect : Nat → Option Nat) (todo i k : Nat)
    (acc : List LockableConnection) (hk : k < todo) (hfail : connect (i + k) = none)
    (hok : ∀ j, j < k → (connect (i + j)).isSome = true) :
    buildLoop connect todo i acc = .exited 1 (i + k + 1) := by
  induction todo generalizing i k acc with
  | zero => exact absurd hk (Nat.not_lt_zero k)
  | succ todo ih =>
    cases k with
    | zero =>
      rw [Nat.add_zero] at hfail
      simp [buildLoop, hfail]
    | succ k =>
      have h0 := hok 0 (Nat.succ_pos k)
      rw [Nat.add_zero] at h0
      obtain ⟨h, hh⟩ := Option.isSome_iff_exists.1 h0
      simp only [buildLoop, hh]
      rw [ih (i + 1) k _ (by omega) (by rwa [show i + 1 + k = i + (k + 1) by omega])
        (fun j hj => by
          have := hok (j + 1) (by omega)
          rwa [show i + (j + 1) = i + 1 + j by omega] at this)]
      congr 1
      omega

theorem build_ok (n : Nat) (connect : Nat → Option Nat)
    (hall : ∀ i, i < n → (connect i).isSome = true) :
    ∃ pool, build n connect = .built pool n ∧ pool.length = n ∧
      (∀ i, i < n → ∃ h, connect i = some h ∧
        pool[i]? = some { Conn := h, Lock := .Available }) ∧
      ∀ W, start n connect W = .ok (launch n pool W) := by
  obtain ⟨pool, hbuild, hlen, _, hnew⟩ :=
    buildLoop_all_ok connect n 0 [] (fun j hj => by rw [Nat.zero_add]; exact hall j hj)
  rw [Nat.zero_add] at hbuild
  refine ⟨pool, hbuild, by simpa using hlen, ?_, ?_⟩
  · intro i hi
    obtain ⟨h, hh, hp⟩ := hnew i hi
    rw [Nat.zero_add] at hh
    exact ⟨h, hh, by simpa using hp⟩
  · intro W
    unfold start build
    rw [hbuild]

theorem build_fail (n : Nat) (connect : Nat → Option Nat) (k : Nat) (hk : k < n)
    (hfail : connect k = none) (hok : ∀ i, i < k → (connect i).isSome = true) :
    build n connect = .exited 1 (k + 1) ∧ ∀ W, start n connect W = .error 1 := by
  have hb : build n connect = .exited 1 (k + 1) := by
    have := buildLoop_first_failure connect n 0 k [] hk (by rwa [Nat.zero_add])
      (fun j hj => by rw [Nat.zero_add]; exact hok j hj)
    rwa [Nat.zero_add] at this
  refine ⟨hb, ?_⟩
  intro W
  unfold start
  rw [hb]

theorem build_built_iff (n : Nat) (connect : Nat → Option Nat) :
    (∃ pool calls, build n connect = .built pool calls) ↔
      ∀ i, i < n → (connect i).isSome = true := by
  constructor
  · rintro ⟨pool, calls, hbuilt⟩
    by_contra hnot
    have hex : ∃ k, k < n ∧ connect k = none := by
      by_contra hno
      apply hnot
      intro i hi
      cases hci : connect i with
      | none => exact absurd ⟨i, hi, hci⟩ hno
      | some h => rfl
    have hk := Nat.find_spec hex
    have hmin : ∀ i, i < Nat.find hex → (connect i).isSome = true := by
      intro i hi
      have := Nat.find_min hex hi
      cases hci : connect i with
      | none => exact absurd ⟨by omega, hci⟩ this
      | some h => rfl
    rw [(build_fail n connect _ hk.1 hk.2 hmin).1] at hbuilt
    cases hbuilt
  · intro hall
    obtain ⟨pool, hbuild, _⟩ := build_ok n connect hall
    exact ⟨pool, n, hbuild⟩

/-- C8. Pool construction for `connCount = n`.  When the first `n` connect
calls all succeed, exactly `n` calls are made and the pool has exactly `n`
slots, slot `i` wrapping the handle of the `i`-th call with an `Available`
token, and the workers are started on that pool.  When call `k < n` is the
first to fail, construction stops with `os.Exit(1)` after exactly `k + 1`
calls and no worker state exists.  A pool is built if and only if the first
`n` calls all succeed. -/
theorem build_all_or_nothing (n : Nat) (connect : Nat → Option Nat) :
    ((∀ i, i < n → (connect i).isSome = true) →
      ∃ pool, build n connect = .built pool n ∧ pool.length = n ∧
        (∀ i, i < n → ∃ h, connect i = some h ∧
          pool[i]? = some { Conn := h, Lock := .Available }) ∧
        ∀ W, start n connect W = .ok (launch n pool W)) ∧
    (∀ k, k < n → connect k = none → (∀ i, i < k → (connect i).isSome = true) →
      build n connect = .exited 1 (k + 1) ∧ ∀ W, start n connect W = .error 1) ∧
    ((∃ pool calls, build n connect = .built pool calls) ↔
      ∀ i, i < n → (connect i).isSome = true) :=
  ⟨build_ok n connect, build_fail n connect, build_built_iff n connect⟩

theorem start_ok {n W : Nat} {connect : Nat → Option Nat} {s0 : State}
    (h : start n connect W = .ok s0) :
    ∃ pool : List LockableConnection, s0 = launch n pool W ∧ pool.length = n ∧
      ∀ (i : Nat) (c : LockableConnection), pool[i]? = some c → c.Lock = .Available := by
  have hall : ∀ i, i < n → (connect i).isSome = true := by
    apply (build_built_iff n connect).1
    unfold start at h
    cases hb : build n connect with
    | built pool calls => exact ⟨pool, calls, rfl⟩
    | exited code calls => simp [hb] at h
  obtain ⟨pool, _, hlen, hslots, hstart⟩ := build_ok n connect hall
  refine ⟨pool, ?_, hlen, ?_⟩
  · rw [hstart W] at h
    injection h with h
    exact h.symm
  · intro i c hc
    have hi : i < n := by
      rw [← hlen]
      exact getElem?_lt hc
    obtain ⟨hd, _, hp⟩ := hslots i hi
    rw [hp] at hc
    injection hc with hc
    rw [← hc]

theorem owned_launch (n W : Nat) (pool : List LockableConnection)
    (hpool : ∀ (i : Nat) (c : LockableConnection), pool[i]? = some c → c.Lock = .Available) :
    Owned (launch n pool W).connections (launch n pool W).workers := by
  have hnone : ∀ w, heldBy (List.replicate W Worker.checkout) w = none := by
    intro w
    unfold heldBy
    cases hw : (List.replicate W Worker.checkout)[w]? with
    | none => rfl
    | some a =>
      have := List.mem_replicate.1 (List.getElem?_mem hw)
      rw [this.2]
      rfl
  have hfree : ∀ i, isHeld pool i = false := by
    intro i
    unfold isHeld
    cases hc : pool[i]? with
    | none => rfl
    | some c => simp [hpool i c hc]
  refine ⟨?_, ?_, ?_, ?_⟩
  · intro w i hw
    simp only [launch] at hw
    rw [hnone] at hw
    cases hw
  · intro i hi
    simp only [launch] at hi
    rw [hfree] at hi
    cases hi
  · intro w v i hw
    simp only [launch] at hw
    rw [hnone] at hw
    cases hw
  · simp only [launch, heldCount, holders]
    rw [List.countP_eq_zero.2, List.countP_eq_zero.2]
    · intro a ha
      rw [(List.mem_replicate.1 ha).2]
      simp [Worker.held]
    · intro c hc
      obtain ⟨i, hi⟩ := List.mem_iff_getElem?.1 hc
      simp [hpool i c hi]

/-- C1. In every state reachable from the start of the workers (pool of `n`
slots all `Available`, `W` workers holding nothing) by any interleaving of
worker events: the pool still has `n` slots and there are still `W` workers,
every `Held` slot is held by exactly one worker, a worker holds at most one
slot and that slot is `Held`, and the number of `Held` slots is at most `n`
and at most `W`.  (The bound `n >= 1` of the claim is not needed.) -/
theorem held_slots_owned (n W : Nat) (connect : Nat → Option Nat) (s0 s : State)
    (evs : List Event) (hstart : start n connect W = .ok s0) (hrun : run s0 evs = some s) :
    s.connections.length = n ∧ s.workers.length = W ∧
    (∀ i, isHeld s.connections i = true → ∃! w, heldBy s.workers w = some i) ∧
    (∀ w i j, heldBy s.workers w = some i → heldBy s.workers w = some j → i = j) ∧
    (∀ w i, heldBy s.workers w = some i → isHeld s.connections i = true) ∧
    heldCount s.connections ≤ n ∧ heldCount s.connections ≤ W := by
  obtain ⟨pool, hs0, hlen, hpool⟩ := start_ok hstart
  have h0 : Owned s0.connections s0.workers := by
    rw [hs0]
    exact owned_launch n W pool hpool
  have hinv := owned_run h0 hrun
  obtain ⟨hl1, hl2⟩ := run_lengths hrun
  have hn : s.connections.length = n := by
    rw [hl1, hs0]
    exact hlen
  have hW : s.workers.length = W := by
    rw [hl2, hs0]
    simp [launch]
  refine ⟨hn, hW, ?_, ?_, hinv.held_of_holder, ?_, ?_⟩
  · intro i hi
    obtain ⟨w, hw⟩ := hinv.holder_of_held i hi
    exact ⟨w, hw, fun v hv => hinv.holder_unique v w i hv hw⟩
  · intro w i j hi hj
    rw [hi] at hj
    exact Option.some.inj hj
  · rw [← hn]
    exact List.countP_le_length _
  · rw [hinv.count_eq, ← hW]
    exact List.countP_le_length _

theorem held_slots_owned_witness :
    ∃ s0 s, start 2 (fun i => some (5 + i)) 3 = .ok s0 ∧
      run s0 [.attempt 0 1, .exec 0 true, .attempt 2 1, .attempt 2 0] = some s ∧
      s.connections.length = 2 ∧ s.workers.length = 3 ∧
      (∀ i, isHeld s.connections i = true → ∃! w, heldBy s.workers w = some i) ∧
      (∀ w i j, heldBy s.workers w = some i → heldBy s.workers w = some j → i = j) ∧
      (∀ w i, heldBy s.workers w = some i → isHeld s.connections i = true) ∧
      heldCount s.connections ≤ 2 ∧ heldCount s.connections ≤ 3 :=
  ⟨launch 2 [⟨5, .Available⟩, ⟨6, .Available⟩] 3,
    { connCount := 2, connections := [⟨5, .Held⟩, ⟨6, .Held⟩],
      workers := [.test 1, .checkout, .exec 0], err := true, queryCount := 0, errorCount := 0 },
    rfl, by decide,
    held_slots_owned 2 3 (fun i => some (5 + i)) _ _
      [.attempt 0 1, .exec 0 true, .attempt 2 1, .attempt 2 0] rfl (by decide)⟩

/-! ## Counters -/

theorem wrap32_wrap32_succ (a : Int) : wrap32 (wrap32 a + 1) = wrap32 (a + 1) := by
  unfold wrap32
  omega

theorem wrap32_le_self (a : Int) (ha : 0 ≤ a) : wrap32 a ≤ a := by
  unfold wrap32
  omega

theorem errorAdds_cons (e : Event) (evs : List Event) :
    errorAdds (e :: evs) = errorAdds [e] + errorAdds evs := by
  unfold errorAdds
  rw [List.countP_cons, List.countP_cons, List.countP_nil]
  omega

theorem queryAdds_cons (e : Event) (evs : List Event) :
    queryAdds (e :: evs) = queryAdds [e] + queryAdds evs := by
  unfold queryAdds
  rw [List.countP_cons, List.countP_cons, List.countP_nil]
  omega

/-- Effect of one step on the counters and on the number of workers at the
`queryCount` increment. -/
theorem step_counters {s s' : State} {e : Event} (h : step s e = some s') :
    ((errorAdds [e] = 0 ∧ s'.errorCount = s.errorCount) ∨
      (errorAdds [e] = 1 ∧ s'.errorCount = wrap32 (s.errorCount + 1))) ∧
    ((queryAdds [e] = 0 ∧ s'.queryCount = s.queryCount) ∨
      (queryAdds [e] = 1 ∧ s'.queryCount = wrap32 (s.queryCount + 1))) ∧
    pendingAdds s.workers + errorAdds [e] ≤ pendingAdds s'.workers + queryAdds [e] := by
  cases e with
  | attempt w candidate =>
    simp only [step] at h
    split at h
    · rename_i hw
      split at h
      · split at h
        · injection h with h
          subst h
          refine ⟨Or.inl ⟨rfl, rfl⟩, Or.inl ⟨rfl, rfl⟩, ?_⟩
          simp only [pendingAdds]
          rw [countP_set_same Worker.atAddQuery s.workers w .checkout (.exec candidate) hw rfl]
          simp [errorAdds, queryAdds]
        · injection h with h
          subst h
          exact ⟨Or.inl ⟨rfl, rfl⟩, Or.inl ⟨rfl, rfl⟩, by simp [errorAdds, queryAdds]⟩
        · cases h
      · cases h
    · cases h
  | exec w failed =>
    simp only [step] at h
    split at h
    · rename_i c hw
      injection h with h
      subst h
      refine ⟨Or.inl ⟨rfl, rfl⟩, Or.inl ⟨rfl, rfl⟩, ?_⟩
      simp only [pendingAdds]
      rw [countP_set_same Worker.atAddQuery s.workers w (.exec c) (.test c) hw rfl]
      simp [errorAdds, queryAdds]
    · cases h
  | test w =>
    simp only [step] at h
    split at h
    · rename_i c hw
      injection h with h
      subst h
      refine ⟨Or.inl ⟨rfl, rfl⟩, Or.inl ⟨rfl, rfl⟩, ?_⟩
      simp only [pendingAdds]
      cases s.err with
      | true =>
        rw [if_pos rfl, countP_set_same Worker.atAddQuery s.workers w (.test c) (.logErr c) hw rfl]
        simp [errorAdds, queryAdds]
      | false =>
        rw [if_neg (by simp), countP_set_gain Worker.atAddQuery s.workers w (.test c) (.addQuery c) hw rfl rfl]
        simp [errorAdds, queryAdds]
    · cases h
  | addError w =>
    simp only [step] at h
    split at h
    · rename_i c hw
      injection h with h
      subst h
      refine ⟨Or.inr ⟨rfl, rfl⟩, Or.inl ⟨rfl, rfl⟩, ?_⟩
      simp only [pendingAdds]
      rw [countP_set_gain Worker.atAddQuery s.workers w (.logErr c) (.addQuery c) hw rfl rfl]
      simp [errorAdds, queryAdds]
    · cases h
  | addQuery w =>
    simp only [step] at h
    split at h
    · rename_i c hw
      injection h with h
      subst h
      refine ⟨Or.inl ⟨rfl, rfl⟩, Or.inr ⟨rfl, rfl⟩, ?_⟩
      simp only [pendingAdds]
      have := countP_set_lose Worker.atAddQuery s.workers w (.addQuery c) (.release c) hw rfl rfl
      simp only [errorAdds, queryAdds, List.countP_cons, List.countP_nil]
      simp
      omega
    · cases h
  | release w =>
    simp only [step] at h
    split at h
    · rename_i c hw
      split at h
      · injection h with h
        subst h
        refine ⟨Or.inl ⟨rfl, rfl⟩, Or.inl ⟨rfl, rfl⟩, ?_⟩
        simp only [pendingAdds]
        rw [countP_set_same Worker.atAddQuery s.workers w (.release c) .checkout hw rfl]
        simp [errorAdds, queryAdds]
      · cases h
    · cases h

/-- Along any schedule each counter holds the wrapped number of its
increments, and the increments of `errorCount` exceed those of `queryCount`
by at most the workers that reached line 104. -/
theorem run_counters {s s' : State} {evs : List Event} (h : run s evs = some s') (a b : Int)
    (ha : s.errorCount = wrap32 a) (hb : s.queryCount = wrap32 b) :
    s'.errorCount = wrap32 (a + errorAdds evs) ∧ s'.queryCount = wrap32 (b + queryAdds evs) ∧
      pendingAdds s.workers + errorAdds evs ≤ pendingAdds s'.workers + queryAdds evs := by
  induction evs generalizing s a b with
  | nil =>
    simp only [run] at h
    injection h with h
    subst h
    simp [errorAdds, queryAdds, ha, hb]
  | cons e evs ih =>
    simp only [run] at h
    cases hstep : step s e with
    | none => simp [hstep] at h
    | some mid =>
      rw [hstep] at h
      obtain ⟨he, hq, hp⟩ := step_counters hstep
      have ha' : mid.errorCount = wrap32 (a + errorAdds [e]) := by
        rcases he with ⟨h0, h1⟩ | ⟨h0, h1⟩
        · rw [h1, h0, ha]
          simp
        · rw [h1, h0, ha, wrap32_wrap32_succ]
          rfl
      have hb' : mid.queryCount = wrap32 (b + queryAdds [e]) := by
        rcases hq with ⟨h0, h1⟩ | ⟨h0, h1⟩
        · rw [h1, h0, hb]
          simp
        · rw [h1, h0, hb, wrap32_wrap32_succ]
          rfl
      obtain ⟨r1, r2, r3⟩ := ih h _ _ ha' hb'
      rw [errorAdds_cons, queryAdds_cons]
      refine ⟨?_, ?_, by omega⟩
      · rw [r1]
        congr 1
        push_cast
        ring
      · rw [r2]
        congr 1
        push_cast
        ring

theorem pendingAdds_launch (n W : Nat) (pool : List LockableConnection) :
    pendingAdds (launch n pool W).workers = 0 := by
  simp only [launch, pendingAdds]
  rw [List.countP_eq_zero]
  intro a ha
  rw [(List.mem_replicate.1 ha).2]
  simp [Worker.atAddQuery]

theorem pendingAdds_of_idle (workers : List Worker) (h : workers.all Worker.idle = true) :
    pendingAdds workers = 0 := by
  unfold pendingAdds
  rw [List.countP_eq_zero]
  intro a ha
  have := List.all_eq_true.1 h a ha
  cases a <;> simp_all [Worker.idle, Worker.atAddQuery]

theorem run_successRun (k : Nat) (q e : Int) (b : Bool) :
    ∃ b', run (soloState (wrap32 q) e b) (successRun k) = some (soloState (wrap32 (q + k)) e b') := by
  induction k generalizing q b with
  | zero => exact ⟨b, by simp [successRun, run]⟩
  | succ k ih =>
    obtain ⟨b', hb'⟩ := ih (q + 1) false
    refine ⟨b', ?_⟩
    have hiter := run_iteration (soloState (wrap32 q) e b) 0 [] 0 false rfl
      (fun p hp => absurd hp (List.not_mem_nil p)) Nat.zero_lt_one rfl
    have hmid : ({ soloState (wrap32 q) e b with
        err := false
        queryCount := wrap32 ((soloState (wrap32 q) e b).queryCount + 1)
        errorCount := if false = true then wrap32 ((soloState (wrap32 q) e b).errorCount + 1)
          else (soloState (wrap32 q) e b).errorCount } : State)
        = soloState (wrap32 (q + 1)) e false := by
      simp [soloState, wrap32_wrap32_succ]
    rw [hmid] at hiter
    simp only [successRun]
    rw [run_append, hiter, Option.some_bind, hb']
    congr 3
    push_cast
    ring

/-- C6, as stated, fails.  With one worker and one slot: after the first
failed query has been counted in `errorCount` and before `queryCount` is
incremented, `errorCount = 1 > 0 = queryCount`; and after one failed
iteration followed by `2^31 - 1` successful ones, with the worker between
iterations, `queryCount` has wrapped to `-2^31 < 1 = errorCount`. -/
theorem errors_exceed_queries :
    start 1 (fun _ => some 0) 1 = .ok (launch 1 [⟨0, .Available⟩] 1) ∧
    (∃ s, run (launch 1 [⟨0, .Available⟩] 1)
        [.attempt 0 0, .exec 0 true, .test 0, .addError 0] = some s ∧
      s.errorCount = 1 ∧ s.queryCount = 0 ∧ ¬ s.errorCount ≤ s.queryCount) ∧
    (∃ s, run (launch 1 [⟨0, .Available⟩] 1)
        (iteration 0 [] 0 true ++ successRun 2147483647) = some s ∧
      s.workers.all Worker.idle = true ∧
      s.errorCount = 1 ∧ s.queryCount = -2147483648 ∧ ¬ s.errorCount ≤ s.queryCount) := by
  refine ⟨rfl, ⟨_, rfl, rfl, rfl, by decide⟩, ?_⟩
  obtain ⟨b', hb'⟩ := run_successRun 2147483647 1 1 true
  have h1 : run (launch 1 [⟨0, .Available⟩] 1) (iteration 0 [] 0 true)
      = some (soloState (wrap32 1) 1 true) := by decide
  have hw : wrap32 (1 + ((2147483647 : Nat) : Int)) = -2147483648 := by decide
  rw [hw] at hb'
  refine ⟨soloState (-2147483648) 1 b', ?_, rfl, rfl, rfl, ?_⟩
  · rw [run_append, h1, Option.some_bind, hb']
  · show ¬ ((1 : Int) ≤ -2147483648)
    decide

/-- C6, amended.  In every state reached from the start of the workers by a
schedule with fewer than `2^31` increments of `queryCount`: `queryCount` is the
number of its increments, `errorCount` is at most `queryCount` plus the number
of workers that are at the `queryCount` increment (line 104), which is at most
`W`; so `errorCount <= queryCount` whenever no worker is at line 104, in
particular whenever every worker is between two iterations. -/
theorem errors_le_queries_plus_pending (n W : Nat) (connect : Nat → Option Nat)
    (s0 s : State) (evs : List Event) (hstart : start n connect W = .ok s0)
    (hrun : run s0 evs = some s) (hq : queryAdds evs < 2147483648) :
    s.queryCount = queryAdds evs ∧
    s.errorCount ≤ s.queryCount + pendingAdds s.workers ∧
    pendingAdds s.workers ≤ W ∧
    (pendingAdds s.workers = 0 → s.errorCount ≤ s.queryCount) ∧
    (s.workers.all Worker.idle = true → s.errorCount ≤ s.queryCount) := by
  obtain ⟨pool, hs0, _, _⟩ := start_ok hstart
  have hp0 : pendingAdds s0.workers = 0 := by
    rw [hs0]
    exact pendingAdds_launch n W pool
  have hW : s.workers.length = W := by
    rw [(run_lengths hrun).2, hs0]
    simp [launch]
  obtain ⟨he, hqc, hpend⟩ := run_counters hrun 0 0 (by rw [hs0]; rfl) (by rw [hs0]; rfl)
  have hqv : s.queryCount = queryAdds evs := by
    rw [hqc, Int.zero_add]
    exact wrap32_of_range _ (by omega) (by omega)
  have hev : s.errorCount ≤ errorAdds evs := by
    rw [he, Int.zero_add]
    exact wrap32_le_self _ (by omega)
  have hmain : s.errorCount ≤ s.queryCount + pendingAdds s.workers := by
    rw [hqv]
    omega
  refine ⟨hqv, hmain, ?_, ?_, ?_⟩
  · rw [← hW]
    exact List.countP_le_length _
  · intro h0
    rw [h0] at hmain
    simpa using hmain
  · intro hidle
    rw [pendingAdds_of_idle _ hidle] at hmain
    simpa using hmain

theorem errors_le_queries_plus_pending_witness :
    ∃ s0 s, start 1 (fun _ => some 0) 1 = .ok s0 ∧
      run s0 [.attempt 0 0, .exec 0 true, .test 0, .addError 0] = some s ∧
      queryAdds [.attempt 0 0, .exec 0 true, .test 0, .addError 0] < 2147483648 ∧
      s.queryCount = queryAdds [.attempt 0 0, .exec 0 true, .test 0, .addError 0] ∧
      s.errorCount ≤ s.queryCount + pendingAdds s.workers ∧
      pendingAdds s.workers ≤ 1 ∧
      (pendingAdds s.workers = 0 → s.errorCount ≤ s.queryCount) ∧
      (s.workers.all Worker.idle = true → s.errorCount ≤ s.queryCount) :=
  ⟨launch 1 [⟨0, .Available⟩] 1,
    { connCount := 1, connections := [⟨0, .Held⟩], workers := [.addQuery 0], err := true,
      queryCount := 0, errorCount := 1 },
    rfl, by decide, by decide,
    errors_le_queries_plus_pending 1 1 (fun _ => some 0) _ _
      [.attempt 0 0, .exec 0 true, .test 0, .addError 0] rfl (by decide) (by decide)⟩

/-- C7, as stated, fails.  With one worker and one slot, after `2^31 - 1`
successful iterations `queryCount = 2^31 - 1`; the next increment of
`queryCount` stores `-2^31`, which is negative and smaller than the value
before the step. -/
theorem queryCount_wraps_negative :
    start 1 (fun _ => some 0) 1 = .ok (launch 1 [⟨0, .Available⟩] 1) ∧
    ∃ s s', run (launch 1 [⟨0, .Available⟩] 1)
        (successRun 2147483647 ++ [.attempt 0 0, .exec 0 false, .test 0]) = some s ∧
      step s (.addQuery 0) = some s' ∧
      s.queryCount = 2147483647 ∧ s'.queryCount = -2147483648 ∧
      ¬ (0 ≤ s'.queryCount ∧ s.queryCount ≤ s'.queryCount) := by
  refine ⟨rfl, ?_⟩
  obtain ⟨b', hb'⟩ := run_successRun 2147483647 0 0 false
  have hw : wrap32 (0 + ((2147483647 : Nat) : Int)) = 2147483647 := by decide
  have h0 : launch 1 [⟨0, .Available⟩] 1 = soloState (wrap32 0) 0 false := by decide
  rw [hw] at hb'
  refine ⟨{ connCount := 1, connections := [⟨0, .Held⟩], workers := [.addQuery 0], err := false,
            queryCount := 2147483647, errorCount := 0 },
          { connCount := 1, connections := [⟨0, .Held⟩], workers := [.release 0], err := false,
            queryCount := -2147483648, errorCount := 0 }, ?_, by decide, rfl, rfl, by decide⟩
  rw [run_append, h0, hb', Option.some_bind]
  cases b' <;> decide

/-- C7, amended.  For every state reached from the start of the workers and
every step from it, as long as each counter has been incremented fewer than
`2^31` times in all (the step included): both counters are non-negative in
the state before the step and neither is smaller after the step than
before. -/
theorem counters_monotone_before_overflow (n W : Nat) (connect : Nat → Option Nat)
    (s0 s s' : State) (evs : List Event) (e : Event) (hstart : start n connect W = .ok s0)
    (hrun : run s0 evs = some s) (hstep : step s e = some s')
    (hq : queryAdds (evs ++ [e]) < 2147483648) (he : errorAdds (evs ++ [e]) < 2147483648) :
    0 ≤ s.queryCount ∧ s.queryCount ≤ s'.queryCount ∧
    0 ≤ s.errorCount ∧ s.errorCount ≤ s'.errorCount := by
  obtain ⟨pool, hs0, _, _⟩ := start_ok hstart
  have hrun' : run s0 (evs ++ [e]) = some s' := by
    rw [run_append, hrun, Option.some_bind]
    simp [run, hstep]
  obtain ⟨e1, q1, _⟩ := run_counters hrun 0 0 (by rw [hs0]; rfl) (by rw [hs0]; rfl)
  obtain ⟨e2, q2, _⟩ := run_counters hrun' 0 0 (by rw [hs0]; rfl) (by rw [hs0]; rfl)
  have hqa : queryAdds (evs ++ [e]) = queryAdds evs + queryAdds [e] := by
    unfold queryAdds
    rw [List.countP_append]
  have hea : errorAdds (evs ++ [e]) = errorAdds evs + errorAdds [e] := by
    unfold errorAdds
    rw [List.countP_append]
  rw [Int.zero_add, wrap32_of_range _ (by omega) (by omega)] at e1 q1 e2 q2
  rw [e1, q1, e2, q2, hqa, hea]
  refine ⟨by omega, by omega, by omega, by omega⟩

theorem counters_monotone_before_overflow_witness :
    ∃ s0 s s', start 1 (fun _ => some 0) 1 = .ok s0 ∧
      run s0 [.attempt 0 0, .exec 0 true, .test 0] = some s ∧
      step s (.addError 0) = some s' ∧
      queryAdds ([.attempt 0 0, .exec 0 true, .test 0] ++ [.addError 0]) < 2147483648 ∧
      errorAdds ([.attempt 0 0, .exec 0 true, .test 0] ++ [.addError 0]) < 2147483648 ∧
      0 ≤ s.queryCount ∧ s.queryCount ≤ s'.queryCount ∧
      0 ≤ s.errorCount ∧ s.errorCount ≤ s'.errorCount :=
  ⟨launch 1 [⟨0, .Available⟩] 1,
    { connCount := 1, connections := [⟨0, .Held⟩], workers := [.logErr 0], err := true,
      queryCount := 0, errorCount := 0 },
    { connCount := 1, connections := [⟨0, .Held⟩], workers := [.addQuery 0], err := true,
      queryCount := 0, errorCount := 1 },
    rfl, by decide, by decide, by decide, by decide,
    counters_monotone_before_overflow 1 1 (fun _ => some 0) _ _ _
      [.attempt 0 0, .exec 0 true, .test 0] (.addError 0) rfl (by decide) (by decide)
      (by decide) (by decide)⟩

/-- C10: the code at the failing schedules.  Two workers, two slots.  In
`lostFailure` the query of worker 0 fails, yet worker 0 goes from its test of
`err` straight to the `queryCount` increment: with both workers back between
iterations there has been one failed and one successful execution,
`errorCount = 0` and `queryCount = 2`.  In `spuriousError` only the query of
worker 1 fails, yet both workers increment `errorCount`: at the end
`errorCount = 2` with one failed execution, and `queryCount = 2` while the
successes plus `errorCount` make 3. -/
theorem shared_err_miscounts :
    start 2 (fun i => some i) 2 = .ok (launch 2 [⟨0, .Available⟩, ⟨1, .Available⟩] 2) ∧
    (∃ s, run (launch 2 [⟨0, .Available⟩, ⟨1, .Available⟩] 2) lostFailure = some s ∧
      s.workers.all Worker.idle = true ∧
      failedExecs lostFailure = 1 ∧ successExecs lostFailure = 1 ∧
      s.errorCount = 0 ∧ s.queryCount = 2 ∧
      s.errorCount ≠ failedExecs lostFailure ∧
      s.queryCount ≠ successExecs lostFailure + s.errorCount) ∧
    (∃ s, run (launch 2 [⟨0, .Available⟩, ⟨1, .Available⟩] 2) spuriousError = some s ∧
      s.workers.all Worker.idle = true ∧
      failedExecs spuriousError = 1 ∧ successExecs spuriousError = 1 ∧
      s.errorCount = 2 ∧ s.queryCount = 2 ∧
      s.errorCount ≠ failedExecs spuriousError ∧
      s.queryCount ≠ successExecs spuriousError + s.errorCount) := by
  refine ⟨rfl, ⟨_, rfl, ?_⟩, ⟨_, rfl, ?_⟩⟩ <;> decide

/-! ## Reporter -/

theorem digitChar_toNat (d : Nat) (hd : d < 10) : (digitChar d).toNat - 48 = d := by
  interval_cases d <;> rfl

theorem digitChar_ne_zero (d : Nat) (hd : d < 10) (h0 : d ≠ 0) : digitChar d ≠ '0' := by
  interval_cases d <;> first | exact absurd rfl h0 | decide

theorem digitChar_isDigit (d : Nat) (hd : d < 10) : (digitChar d).isDigit = true := by
  interval_cases d <;> rfl

theorem decimalValue_append (cs : List Char) (c : Char) :
    decimalValue (cs ++ [c]) = 10 * decimalValue cs + (c.toNat - 48) := by
  simp [decimalValue, List.foldl_append]

theorem decimalValue_digits (l : List Nat) (hl : ∀ d ∈ l, d < 10) :
    decimalValue (l.reverse.map digitChar) = Nat.ofDigits 10 l := by
  induction l with
  | nil => rfl
  | cons d l ih =>
    rw [List.reverse_cons, List.map_append, List.map_singleton, decimalValue_append,
      ih (fun x hx => hl x (List.mem_cons_of_mem _ hx)),
      digitChar_toNat d (hl d (List.mem_cons_self _ _)), Nat.ofDigits_cons]
    omega

/-- The rendering `natDecimal` is the unpadded decimal numeral: it consists of
decimal digits, reads back as the number, and has no leading zero except for
the single digit of zero. -/
theorem natDecimal_unpadded (n : Nat) :
    (∀ c ∈ natDecimal n, c.isDigit = true) ∧ decimalValue (natDecimal n) = n ∧
      (n = 0 → natDecimal n = ['0']) ∧ (n ≠ 0 → (natDecimal n).head? ≠ some '0') := by
  have hlt : ∀ d ∈ Nat.digits 10 n, d < 10 := fun d hd => Nat.digits_lt_base (by norm_num) hd
  by_cases hn : n = 0
  · subst hn
    refine ⟨?_, ?_, fun _ => rfl, fun h => absurd rfl h⟩
    · intro c hc
      have : c = '0' := by simpa [natDecimal] using hc
      rw [this]
      rfl
    · rfl
  · have hdef : natDecimal n = (Nat.digits 10 n).reverse.map digitChar := by
      simp [natDecimal, hn]
    refine ⟨?_, ?_, fun h => absurd h hn, fun _ => ?_⟩
    · intro c hc
      rw [hdef] at hc
      obtain ⟨d, hd, rfl⟩ := List.mem_map.1 hc
      exact digitChar_isDigit d (hlt d (List.mem_reverse.1 hd))
    · rw [hdef, decimalValue_digits _ hlt, Nat.ofDigits_digits]
    · rw [hdef, List.head?_map, List.head?_reverse]
      have hne : Nat.digits 10 n ≠ [] := Nat.digits_ne_nil_iff_ne_zero.2 hn
      rw [List.getLast?_eq_getLast _ hne]
      simp only [Option.map_some', ne_eq, Option.some.injEq]
      exact digitChar_ne_zero _ (hlt _ (List.getLast_mem hne)) (Nat.getLast_digit_ne_zero 10 hn)

/-- C9. For an elapsed time of `s >= 0` whole seconds and counters `N`, `E`
the reporter prints exactly `[m:r] Executed N queries (E errors)` and a
newline, where `m = s / 60` and `r = s % 60`, so `0 <= r < 60` and
`60 * m + r = s`; each number is rendered by `%d` as its unpadded decimal
numeral (digits only, reading back as the number, no leading zero), with a
leading minus sign for a negative counter. -/
theorem reportLine_format (s N E : Int) (hs : 0 ≤ s) :
    reportLine s N E = some (String.mk
      ("[".toList ++ fmtD (s / 60) ++ ":".toList ++ fmtD (s % 60) ++ "] Executed ".toList ++
        fmtD N ++ " queries (".toList ++ fmtD E ++ " errors)\n".toList)) ∧
    0 ≤ s % 60 ∧ s % 60 < 60 ∧ 60 * (s / 60) + s % 60 = s ∧
    (∀ v : Int, 0 ≤ v → fmtD v = natDecimal v.toNat) ∧
    (∀ v : Int, v < 0 → fmtD v = '-' :: natDecimal (-v).toNat) ∧
    (∀ n : Nat, (∀ c ∈ natDecimal n, c.isDigit = true) ∧ decimalValue (natDecimal n) = n ∧
      (n = 0 → natDecimal n = ['0']) ∧ (n ≠ 0 → (natDecimal n).head? ≠ some '0')) := by
  refine ⟨?_, Int.emod_nonneg _ (by norm_num), Int.emod_lt_of_pos _ (by norm_num),
    Int.ediv_add_emod s 60, ?_, ?_, natDecimal_unpadded⟩
  · unfold reportLine
    rw [Int.tdiv_eq_ediv hs (by norm_num), Int.tmod_eq_emod hs (by norm_num)]
    simp [sprintf]
  · intro v hv
    have : ¬ v < 0 := by omega
    simp only [fmtD, if_neg this]
    congr 1
    omega
  · intro v hv
    simp only [fmtD, if_pos hv]
    congr 2
    omega

theorem reportLine_format_witness :
    reportLine 125 7 (-3) = some "[2:5] Executed 7 queries (-3 errors)\n" :=
  (reportLine_format 125 7 (-3) (by decide)).1.trans
    (by norm_num [fmtD, natDecimal, digitChar])

end LoadGenerator
